import Mathlib

/-!
Shallow embedding of
`packages/app-builder-lib/src/node-module-collector/bunNodeModulesCollector.ts`.

Paths are modelled as lists of components of an absolute, normalized path
(`path.join dir sub` is list append, `path.dirname` drops the last
component, `path.resolve` is the identity on this canonical form).
JavaScript `Record`/`Map` values are modelled as association lists where a
`set` is a `cons` (lookup finds the most recent binding, exactly like an
overwriting assignment).  Instance state mutated across the recursion is
threaded explicitly; the `processingPaths` set is bracketed by the source's
`add`/`finally delete` pair, so it is passed downward as a parameter, which
is observationally the same discipline.
-/

namespace Bun

abbrev Path := List String

def pathToString (p : Path) : String :=
  "/" ++ String.intercalate "/" p

/-- Association-list lookup, first (most recent) binding wins. -/
def alookup {κ α : Type} [DecidableEq κ] : List (κ × α) → κ → Option α
  | [], _ => none
  | (k', v) :: rest, k => if k' = k then some v else alookup rest k

theorem alookup_cons {κ α : Type} [DecidableEq κ] (k' : κ) (v : α) (rest : List (κ × α)) (k : κ) :
    alookup ((k', v) :: rest) k = if k' = k then some v else alookup rest k := rfl

theorem alookup_some_mem {κ α : Type} [DecidableEq κ] {l : List (κ × α)} {k : κ} {v : α}
    (h : alookup l k = some v) : k ∈ l.map Prod.fst := by
  induction l with
  | nil => simp [alookup] at h
  | cons hd tl ih =>
    obtain ⟨k', v'⟩ := hd
    by_cases hk : k' = k
    · subst hk; simp
    · simp [alookup, hk] at h
      simpa using Or.inr (ih h)

theorem alookup_eq_none {κ α : Type} [DecidableEq κ] {l : List (κ × α)} {k : κ}
    (h : k ∉ l.map Prod.fst) : alookup l k = none := by
  induction l with
  | nil => rfl
  | cons hd tl ih =>
    obtain ⟨k', v'⟩ := hd
    have h1 : k' ≠ k := by
      intro he; exact h (by simp [he])
    have h2 : k ∉ tl.map Prod.fst := by
      intro hm; exact h (List.mem_cons_of_mem _ hm)
    simp [alookup, h1, ih h2]

/-- JavaScript truthiness of a possibly-absent string value: `undefined`
and the empty string are falsy, every other string is truthy. -/
def truthy : Option String → Bool
  | none => false
  | some s => !(s == "")

/-! ## SHA-1 (`createHash("sha1")`), on the UTF-8 bytes of a string. -/

def u32 (x : Nat) : Nat := x % 4294967296

def rotl (n x : Nat) : Nat := u32 ((x <<< n) ||| (x >>> (32 - n)))

def beWord (bytes : List Nat) : Nat := bytes.foldl (fun acc b => acc * 256 + b) 0

def u32be (w : Nat) : List Nat :=
  [w / 16777216 % 256, w / 65536 % 256, w / 256 % 256, w % 256]

def u64be (w : Nat) : List Nat :=
  [w / 72057594037927936 % 256, w / 281474976710656 % 256, w / 1099511627776 % 256,
   w / 4294967296 % 256, w / 16777216 % 256, w / 65536 % 256, w / 256 % 256, w % 256]

/-- SHA-1 message padding: a `0x80` byte, zeros to 56 mod 64, then the
bit length as a 64-bit big-endian integer. -/
def sha1Pad (msg : List Nat) : List Nat :=
  msg ++ [128] ++ List.replicate ((119 - msg.length % 64) % 64) 0 ++ u64be (8 * msg.length)

/-- The 80-word message schedule of one block, from its 16 big-endian words. -/
def sha1Schedule (ws16 : List Nat) : List Nat :=
  ((List.range 64).foldl
    (fun r _ =>
      rotl 1 ((((r.getD 2 0).xor (r.getD 7 0)).xor (r.getD 13 0)).xor (r.getD 15 0)) :: r)
    ws16.reverse).reverse

def sha1F (i b c d : Nat) : Nat :=
  if i < 20 then (b &&& c) ||| ((b.xor 4294967295) &&& d)
  else if i < 40 then (b.xor c).xor d
  else if i < 60 then (b &&& c) ||| (b &&& d) ||| (c &&& d)
  else (b.xor c).xor d

def sha1K (i : Nat) : Nat :=
  if i < 20 then 1518500249
  else if i < 40 then 1859775393
  else if i < 60 then 2400959708
  else 3395469782

/-- One SHA-1 compression step over round index `i`. -/
def sha1Round (w : List Nat) (st : Nat × Nat × Nat × Nat × Nat) (i : Nat) :
    Nat × Nat × Nat × Nat × Nat :=
  let (a, b, c, d, e) := st
  let temp := u32 (rotl 5 a + sha1F i b c d + e + sha1K i + w.getD i 0)
  (temp, a, rotl 30 b, c, d)

/-- Process one 64-byte block into the running hash state. -/
def sha1Block (hs : Nat × Nat × Nat × Nat × Nat) (block : List Nat) :
    Nat × Nat × Nat × Nat × Nat :=
  let ws16 := (List.range 16).map fun i => beWord ((block.drop (4 * i)).take 4)
  let w := sha1Schedule ws16
  let (h0, h1, h2, h3, h4) := hs
  let (a, b, c, d, e) := (List.range 80).foldl (sha1Round w) hs
  (u32 (h0 + a), u32 (h1 + b), u32 (h2 + c), u32 (h3 + d), u32 (h4 + e))

/-- SHA-1 digest (20 bytes) of a byte sequence. -/
def sha1Bytes (msg : List Nat) : List Nat :=
  let padded := sha1Pad msg
  let blocks := (List.range (padded.length / 64)).map fun i => (padded.drop (64 * i)).take 64
  let (h0, h1, h2, h3, h4) :=
    blocks.foldl sha1Block (1732584193, 4023233417, 2562383102, 271733878, 3285377520)
  u32be h0 ++ u32be h1 ++ u32be h2 ++ u32be h3 ++ u32be h4

/-- The sixteen lowercase hexadecimal digit characters `0`–`9`, `a`–`f`. -/
def hexDigits : List Char :=
  (List.range 16).map fun n => if n < 10 then Char.ofNat (48 + n) else Char.ofNat (87 + n)

def hexChar (n : Nat) : Char := hexDigits.getD n '0'

def toHexChars : List Nat → List Char
  | [] => []
  | b :: rest => hexChar (b / 16) :: hexChar (b % 16) :: toHexChars rest

/-- `createHash("sha1").update(s).digest("hex")` on the UTF-8 bytes of `s`. -/
def sha1Hex (s : String) : List Char :=
  toHexChars (sha1Bytes (s.toUTF8.toList.map UInt8.toNat))

/-- `.digest("hex").slice(0, 8)`: the first 8 hex characters of the SHA-1
digest of a string. -/
def sha1Hex8 (s : String) : String := String.mk ((sha1Hex s).take 8)

theorem toHexChars_length (l : List Nat) : (toHexChars l).length = 2 * l.length := by
  induction l with
  | nil => rfl
  | cons b rest ih => simp [toHexChars, ih]; ring

theorem sha1Bytes_length (msg : List Nat) : (sha1Bytes msg).length = 20 := by
  rw [sha1Bytes]
  rcases h : Prod.mk 1732584193 (4023233417, 2562383102, 271733878, 3285377520) with _
  simp [u32be]

theorem sha1Hex8_length (s : String) : (sha1Hex8 s).length = 8 := by
  have h40 : (sha1Hex s).length = 40 := by
    rw [sha1Hex, toHexChars_length, sha1Bytes_length]
  simp [sha1Hex8, String.length, h40]

theorem mem_toHexChars_mem_hexDigits {c : Char} {l : List Nat} (h : c ∈ toHexChars l) :
    c ∈ hexDigits := by
  induction l with
  | nil => simp [toHexChars] at h
  | cons b rest ih =>
    have hmem : ∀ n : Nat, hexChar n ∈ hexDigits := by
      intro n
      by_cases hn : n < hexDigits.length
      · rw [hexChar, List.getD_eq_getElem _ _ hn]
        exact List.getElem_mem hn
      · rw [hexChar, List.getD_eq_default _ _ (Nat.le_of_not_lt hn)]
        decide
    rcases List.mem_cons.mp h with h | h
    · exact h ▸ hmem _
    · rcases List.mem_cons.mp h with h | h
      · exact h ▸ hmem _
      · exact ih h

theorem sha1Hex8_hex (s : String) : ∀ c ∈ (sha1Hex8 s).data, c ∈ hexDigits := by
  intro c hc
  have : c ∈ (sha1Hex s).take 8 := hc
  exact mem_toHexChars_mem_hexDigits (List.mem_of_mem_take this)

/-! ## Data model -/

/-- A parsed `package.json` object (the fields the collector reads;
every field may be absent). -/
structure Manifest where
  name : Option String
  version : Option String
  dependencies : Option (List (String × String))
  optionalDependencies : Option (List (String × String))
  deriving DecidableEq, Repr

/-- `BunDependency` (source lines 9–13): one resolved installed package. -/
inductive BunDep : Type where
  | mk : String → String → String → Path → List (String × String) → List (String × String) →
      Option (List (String × BunDep)) → Option (List (String × BunDep)) → BunDep
  deriving Repr

def BunDep.name : BunDep → String
  | .mk n _ _ _ _ _ _ _ => n

def BunDep.version : BunDep → String
  | .mk _ v _ _ _ _ _ _ => v

def BunDep.reference : BunDep → String
  | .mk _ _ r _ _ _ _ _ => r

def BunDep.path : BunDep → Path
  | .mk _ _ _ p _ _ _ _ => p

def BunDep.manifestDependencies : BunDep → List (String × String)
  | .mk _ _ _ _ md _ _ _ => md

def BunDep.manifestOptionalDependencies : BunDep → List (String × String)
  | .mk _ _ _ _ _ mod _ _ => mod

def BunDep.dependencies : BunDep → Option (List (String × BunDep))
  | .mk _ _ _ _ _ _ d _ => d

def BunDep.optionalDependencies : BunDep → Option (List (String × BunDep))
  | .mk _ _ _ _ _ _ _ od => od

/-- `tree.dependencies || {}`: iterate an absent children map as empty. -/
def optEntries : Option (List (String × BunDep)) → List (String × BunDep)
  | none => []
  | some l => l

/-- `Object.keys(m).length > 0 ? m : undefined` (source lines 35–36, 160–161). -/
def toOpt (l : List (String × BunDep)) : Option (List (String × BunDep)) :=
  if l.length > 0 then some l else none

/-- `${dependency.name}@${dependency.reference}` — the Transitive Map and
Production Graph key of a node. -/
def depKey (d : BunDep) : String := d.name ++ "@" ++ d.reference

/-- The filesystem the collector reads: which directories hold a manifest
(`some none` = a `package.json` that is present but unreadable/unparsable),
which paths exist, and symlink resolution.
`realpath` is the base class's `resolvePath`, which is not part of this
file. Modelled from the spec: the Installed-Path Resolver locates "the real
installation directory", so `realpath` maps an installed path to its real
directory. -/
structure FS where
  manifests : List (Path × Option Manifest)
  existsPaths : List Path
  realpath : Path → Path

def FS.pathExists (fs : FS) (p : Path) : Bool := decide (p ∈ fs.existsPaths)

/-- `readPackageJson` (source lines 226–233): `require` the manifest,
turning any failure into a thrown error. -/
def readPackageJson (fs : FS) (dir : Path) : Except String Manifest :=
  match alookup fs.manifests dir with
  | some (some m) => .ok m
  | _ => .error ("Unable to read package.json for " ++ pathToString dir)

/-- One diagnostic record of `log.debug({ alias, requesterDir }, message)`
(`alias` is a Lean keyword, hence the field name `aliasName`). -/
structure LogEntry where
  aliasName : String
  requesterDir : Path
  message : String
  deriving DecidableEq, Repr

/-- The collector's threaded instance state (source lines 18–21) plus the
emitted diagnostics.  `processingPaths` is passed downward separately. -/
structure St where
  dependencyCacheByPath : List (Path × BunDep)
  referenceByPath : List (Path × String)
  pathByNameVersion : List (String × Path)
  logs : List LogEntry

def St.empty : St := ⟨[], [], [], []⟩

/-! ## Installed-Path Resolver (`findInstalledDependency`, lines 172–197)

The upward `while` loop walks `path.dirname`, which on the canonical
component-list form is `dropLast`; the loop is written as structural
recursion on the reversed component list, whose `tail` is `dropLast` of
the directory. -/

def findGo (fs : FS) (resolvedRoot : Path) (dependencyName : String) :
    List String → Option Path
  | [] =>
    -- at the filesystem root both loop exits fall through to the caller
    let candidate := ([] : Path) ++ ["node_modules", dependencyName]
    if fs.pathExists candidate then some candidate else none
  | s :: rest =>
    let currentDir := (s :: rest).reverse
    let candidate := currentDir ++ ["node_modules", dependencyName]
    if fs.pathExists candidate then some candidate
    else if currentDir = resolvedRoot then none
    else findGo fs resolvedRoot dependencyName rest

def findInstalledDependency (fs : FS) (rootDir : Path) (startDir : Path)
    (dependencyName : String) : Option Path :=
  let resolvedRoot := rootDir
  match findGo fs resolvedRoot dependencyName startDir.reverse with
  | some candidate => some candidate
  | none =>
    let rootCandidate := resolvedRoot ++ ["node_modules", dependencyName]
    if fs.pathExists rootCandidate then some rootCandidate else none

/-! ## Reference Allocator (`createReference`, lines 199–224) -/

def createReference (name : String) (version : Option String) (realDir : Path)
    (st : St) : String × St :=
  let cachedReference := alookup st.referenceByPath realDir
  if truthy cachedReference then (cachedReference.getD "", st)
  else
    let normalizedVersion := version.getD "0.0.0"
    let key := name ++ "@" ++ normalizedVersion
    match alookup st.pathByNameVersion key with
    | none =>
        (normalizedVersion,
         { st with
            pathByNameVersion := (key, realDir) :: st.pathByNameVersion
            referenceByPath := (realDir, normalizedVersion) :: st.referenceByPath })
    | some existingPath =>
        if existingPath = realDir then
          (normalizedVersion,
           { st with referenceByPath := (realDir, normalizedVersion) :: st.referenceByPath })
        else
          let hash := sha1Hex8 (pathToString realDir)
          let uniqueReference := normalizedVersion ++ "+" ++ hash
          (uniqueReference,
           { st with referenceByPath := (realDir, uniqueReference) :: st.referenceByPath })

/-! ## Termination measure for the Dependency Node Builder

`loadDependency` recurses into `resolveChildren` only after marking a
directory in-progress whose manifest it could read; the number of
readable-manifest directories not yet marked therefore strictly
decreases, which is exactly why the in-progress guard makes the
recursion terminate on cyclic layouts. -/

def exceptOk {ε α : Type} : Except ε α → Bool
  | .ok _ => true
  | .error _ => false

def goodDirs (fs : FS) : List Path :=
  ((fs.manifests.map Prod.fst).dedup).filter fun d => exceptOk (readPackageJson fs d)

def freeGood (fs : FS) (processing : List Path) : Nat :=
  ((goodDirs fs).filter fun d => decide (d ∉ processing)).length

theorem length_filter_lt_of_strict {α : Type} {l : List α} {p q : α → Bool}
    (hpq : ∀ x, p x = true → q x = true) {a : α} (ha : a ∈ l) (hnd : l.Nodup)
    (hpa : p a = false) (hqa : q a = true) :
    (l.filter p).length < (l.filter q).length := by
  induction l with
  | nil => cases ha
  | cons hd tl ih =>
    have hnd' : tl.Nodup := (List.nodup_cons.mp hnd).2
    rcases List.mem_cons.mp ha with he | htl
    · subst he
      have hle : (tl.filter p).length ≤ (tl.filter q).length :=
        List.Sublist.length_le (List.monotone_filter_right tl hpq)
      simp only [List.filter_cons, hpa, hqa, if_false, if_true]
      exact Nat.lt_succ_of_le hle
    · have hlt := ih htl hnd'
      cases hph : p hd with
      | true =>
        have hqh : q hd = true := hpq hd hph
        simp only [List.filter_cons, hph, hqh, if_true, List.length_cons]
        exact Nat.succ_lt_succ hlt
      | false =>
        cases hqh : q hd with
        | true =>
          simp only [List.filter_cons, hph, hqh, if_false, if_true, List.length_cons]
          exact Nat.lt_succ_of_lt hlt
        | false =>
          simpa only [List.filter_cons, hph, hqh, if_false] using hlt

theorem freeGood_cons_lt {fs : FS} {rd : Path} {processing : List Path}
    (hgood : exceptOk (readPackageJson fs rd) = true) (hnp : rd ∉ processing) :
    freeGood fs (rd :: processing) < freeGood fs processing := by
  have hmem : rd ∈ goodDirs fs := by
    have hsome : ∃ m, alookup fs.manifests rd = some (some m) := by
      cases h : alookup fs.manifests rd with
      | none => rw [readPackageJson, h] at hgood; simp [exceptOk] at hgood
      | some om =>
        cases om with
        | none => rw [readPackageJson, h] at hgood; simp [exceptOk] at hgood
        | some m => exact ⟨m, rfl⟩
    obtain ⟨m, hm⟩ := hsome
    rw [goodDirs, List.mem_filter]
    exact ⟨List.mem_dedup.mpr (alookup_some_mem hm), hgood⟩
  have hnd : (goodDirs fs).Nodup := (List.nodup_dedup _).filter _
  rw [freeGood, freeGood]
  apply length_filter_lt_of_strict
  · intro x hx
    simp only [decide_eq_true_eq] at hx ⊢
    exact fun hmem2 => hx (List.mem_cons_of_mem _ hmem2)
  · exact hmem
  · exact hnd
  · simp
  · simpa using hnp

/-! ## Dependency Node Builder (`loadDependency` / `resolveChildren`,
lines 95–170) -/

mutual

def loadDependency (fs : FS) (rootDir : Path) (processing : List Path)
    (aliasName : String) (requesterDir : Path) (isOptional : Bool) (st : St) :
    St × Except String (Option BunDep) :=
  match findInstalledDependency fs rootDir requesterDir aliasName with
  | none =>
      if isOptional then (st, .ok none)
      else ({ st with logs :=
               ⟨aliasName, requesterDir, "bun collector could not locate dependency"⟩ ::
                 st.logs },
            .ok none)
  | some installedPath =>
      let realDir := fs.realpath installedPath
      match alookup st.dependencyCacheByPath realDir with
      | some cached => (st, .ok (some cached))
      | none =>
          if hp : realDir ∈ processing then
            (st, .ok (alookup st.dependencyCacheByPath realDir))
          else
            match hm : readPackageJson fs realDir with
            | .error e => (st, .error e)
            | .ok manifest =>
                let packageName := manifest.name.getD aliasName
                let manifestDependencies := manifest.dependencies.getD []
                let manifestOptionalDependencies := manifest.optionalDependencies.getD []
                match resolveChildren fs rootDir (realDir :: processing) realDir
                    manifestDependencies manifestOptionalDependencies st with
                | (st1, .error e) => (st1, .error e)
                | (st1, .ok childMaps) =>
                    let res := createReference packageName manifest.version realDir st1
                    let dep : BunDep :=
                      .mk packageName (manifest.version.getD "0.0.0") res.1 realDir
                        manifestDependencies manifestOptionalDependencies
                        (toOpt childMaps.1) (toOpt childMaps.2)
                    ({ res.2 with dependencyCacheByPath :=
                        (realDir, dep) :: res.2.dependencyCacheByPath },
                     .ok (some dep))
termination_by (freeGood fs processing, 0, 0)
decreasing_by
  apply Prod.Lex.left
  exact freeGood_cons_lt (by rw [hm]; rfl) hp

def resolveList (fs : FS) (rootDir : Path) (processing : List Path)
    (requesterDir : Path) (isOptional : Bool) (aliases : List (String × String))
    (st : St) : St × Except String (List (String × BunDep)) :=
  match aliases with
  | [] => (st, .ok [])
  | (aliasName, _) :: rest =>
      match loadDependency fs rootDir processing aliasName requesterDir isOptional st with
      | (st1, .error e) => (st1, .error e)
      | (st1, .ok depOpt) =>
          match resolveList fs rootDir processing requesterDir isOptional rest st1 with
          | (st2, .error e) => (st2, .error e)
          | (st2, .ok restResolved) =>
              (st2, .ok (match depOpt with
                         | some dep => (aliasName, dep) :: restResolved
                         | none => restResolved))
termination_by (freeGood fs processing, 1 + aliases.length, 0)

def resolveChildren (fs : FS) (rootDir : Path) (processing : List Path)
    (requesterDir : Path) (manifestDependencies : List (String × String))
    (manifestOptionalDependencies : List (String × String)) (st : St) :
    St × Except String (List (String × BunDep) × List (String × BunDep)) :=
  match resolveList fs rootDir processing requesterDir false manifestDependencies st with
  | (st1, .error e) => (st1, .error e)
  | (st1, .ok dependencies) =>
      match resolveList fs rootDir processing requesterDir true
          manifestOptionalDependencies st1 with
      | (st2, .error e) => (st2, .error e)
      | (st2, .ok optionalDependencies) => (st2, .ok (dependencies, optionalDependencies))
termination_by
  (freeGood fs processing,
   2 + manifestDependencies.length + manifestOptionalDependencies.length, 1)

end

/-- `getDependenciesTree` (source lines 23–38). -/
def getDependenciesTree (fs : FS) (rootDir : Path) (st : St) :
    St × Except String BunDep :=
  match readPackageJson fs rootDir with
  | .error e => (st, .error e)
  | .ok rootManifest =>
      let rootName := rootManifest.name.getD "."
      match resolveChildren fs rootDir [] rootDir (rootManifest.dependencies.getD [])
          (rootManifest.optionalDependencies.getD []) st with
      | (st1, .error e) => (st1, .error e)
      | (st1, .ok childMaps) =>
          (st1, .ok (.mk rootName (rootManifest.version.getD "0.0.0") "." rootDir
              (rootManifest.dependencies.getD [])
              (rootManifest.optionalDependencies.getD [])
              (toOpt childMaps.1) (toOpt childMaps.2)))

/-! ## Transitive Collector (`collectAllDependencies`, lines 44–62) -/

theorem sizeOf_optEntries_le (o : Option (List (String × BunDep))) :
    sizeOf (optEntries o) ≤ sizeOf o := by
  cases o <;> simp [optEntries] <;> omega

mutual

/-- `collectAllDependencies(tree)`: flatten the tree into `allDependencies`,
regular dependencies first, then optional ones. -/
def collectAllDependencies (tree : BunDep) (allDependencies : List (String × BunDep)) :
    List (String × BunDep) :=
  match tree with
  | .mk n v r p md mod deps odeps =>
      collectDepList (optEntries odeps) (collectDepList (optEntries deps) allDependencies)
termination_by sizeOf tree
decreasing_by
  all_goals refine Nat.lt_of_le_of_lt (sizeOf_optEntries_le _) ?_ <;> simp <;> omega

/-- One `for (const dependency of Object.values(...))` loop body. -/
def collectDepList (entries : List (String × BunDep))
    (allDependencies : List (String × BunDep)) : List (String × BunDep) :=
  match entries with
  | [] => allDependencies
  | (aliasName, dependency) :: rest =>
      let key := dependency.name ++ "@" ++ dependency.reference
      if (alookup allDependencies key).isSome then collectDepList rest allDependencies
      else
        collectDepList rest
          (collectAllDependencies dependency ((key, dependency) :: allDependencies))
termination_by sizeOf entries
decreasing_by
  all_goals simp <;> omega

end

/-! ## Production Graph Extractor (`extractProductionDependencyGraph`,
lines 64–89).  The graph maps an id to its recorded edge list;
`this.productionGraph[dependencyId] = { dependencies }` is a cons. -/

abbrev PG := List (String × List String)

mutual

def extractProductionDependencyGraph (tree : BunDep) (dependencyId : String) (pg : PG) : PG :=
  match tree with
  | .mk _ _ _ _ manifestDependencies manifestOptionalDependencies deps odeps =>
      if (alookup pg dependencyId).isSome then pg
      else
        let r1 := appendChildren (optEntries deps) manifestDependencies pg
        let r2 := appendChildren (optEntries odeps) manifestOptionalDependencies r1.2
        (dependencyId, r1.1 ++ r2.1) :: r2.2
termination_by sizeOf tree
decreasing_by
  all_goals refine Nat.lt_of_le_of_lt (sizeOf_optEntries_le _) ?_ <;> simp <;> omega

/-- The `appendChildren` closure: walk the resolved entries, keeping only
aliases whose manifest value is truthy, recording the child's id and
recursing into the child. -/
def appendChildren (entries : List (String × BunDep))
    (manifest : List (String × String)) (pg : PG) : List String × PG :=
  match entries with
  | [] => ([], pg)
  | (aliasName, dep) :: rest =>
      if truthy (alookup manifest aliasName) then
        let childId := dep.name ++ "@" ++ dep.reference
        let pg1 := extractProductionDependencyGraph dep childId pg
        let r := appendChildren rest manifest pg1
        (childId :: r.1, r.2)
      else appendChildren rest manifest pg
termination_by sizeOf entries
decreasing_by
  all_goals simp <;> omega

end

/-- `parseDependenciesTree` (lines 91–93): always throws. -/
def parseDependenciesTree (_jsonBlob : String) : Except String BunDep :=
  .error "BunNodeModulesCollector does not parse external dependency trees"

/-! ## Specification-side definitions, used to compare the embedded code
against the spec's wording. -/

/-- Spec-side candidate chain for the Installed-Path Resolver: the
requester directory, then each successive ancestor, stopping once the
project root (or the filesystem root) has been listed.  Written over the
reversed component list, whose `tail` is the parent directory. -/
def specSearchDirs (resolvedRoot : Path) : List String → List Path
  | [] => [[]]
  | s :: rest =>
      (s :: rest).reverse ::
        (if (s :: rest).reverse = resolvedRoot then [] else specSearchDirs resolvedRoot rest)

/-- Spec-side production edge list of one node: children of the resolved
maps whose alias has a truthy entry in the node's own corresponding
manifest map, required children first. -/
def prodEdges (tree : BunDep) : List String :=
  ((optEntries tree.dependencies).filter
      (fun e => truthy (alookup tree.manifestDependencies e.1))).map (fun e => depKey e.2) ++
    ((optEntries tree.optionalDependencies).filter
      (fun e => truthy (alookup tree.manifestOptionalDependencies e.1))).map (fun e => depKey e.2)

/-! ## C4 support: the nodes reachable from (strictly below) a tree root -/

mutual

/-- All nodes reachable through the children maps of a tree (the root
itself excluded). -/
def subNodes (t : BunDep) : List BunDep :=
  match t with
  | .mk _ _ _ _ _ _ deps odeps =>
      subNodesL (optEntries deps) ++ subNodesL (optEntries odeps)
termination_by sizeOf t
decreasing_by
  all_goals refine Nat.lt_of_le_of_lt (sizeOf_optEntries_le _) ?_ <;> simp <;> omega

def subNodesL (entries : List (String × BunDep)) : List BunDep :=
  match entries with
  | [] => []
  | (_, d) :: rest => d :: (subNodes d ++ subNodesL rest)
termination_by sizeOf entries
decreasing_by
  all_goals simp <;> omega

end

/-- Key-injectivity over a set of nodes: two reachable nodes with the
same `name@reference` are the same node. -/
def keyInj (R : List BunDep) : Prop :=
  ∀ d1 ∈ R, ∀ d2 ∈ R, depKey d1 = depKey d2 → d1 = d2

/-- Invariant of the completeness proof: every reachable node whose key is
already in the map is either still pending (its subtree is being collected
by an enclosing call) or has its whole subtree's keys in the map. -/
def pendingOK (R S : List BunDep) (all : List (String × BunDep)) : Prop :=
  ∀ d' ∈ R, depKey d' ∈ all.map Prod.fst →
    d' ∈ S ∨ ∀ e ∈ subNodes d', depKey e ∈ all.map Prod.fst

/-! ## Fixtures used by witnesses and counterexamples -/

/-- Root-only fixture: one directory with an anonymous manifest. -/
def fsRootOnly : FS :=
  { manifests := [(["w"], some ⟨none, none, none, none⟩)], existsPaths := [], realpath := id }

/-- `k`-fold repetition of the same allocation, threading the state. -/
def allocIter (n : String) (v : Option String) (p : Path) : Nat → St → St
  | 0, st => st
  | k + 1, st => (createReference n v p (allocIter n v p k st)).2

/-- The child used in the C1 fixtures. -/
def childX : BunDep := .mk "x" "1.0.0" "1.0.0" ["r", "node_modules", "x"] [] [] none none

/-- C1 counterexample fixture: the resolved `dependencies` map contains
alias `x`, and the node's own `manifestDependencies` lists `x` as a key —
but mapped to the empty version-range string. -/
def nodeEmptyRange : BunDep :=
  .mk "parent" "1.0.0" "1.0.0" ["r"] [("x", "")] [] (some [("x", childX)]) none

/-- C4 counterexample fixtures: two distinct children share the same
`name@reference`, and only the second of them has a child of its own. -/
def dupChild1 : BunDep := .mk "p" "1.0.0" "1.0.0+X" ["r", "a"] [] [] none none

def dupGrandchild : BunDep := .mk "g" "3.0.0" "3.0.0" ["r", "g"] [] [] none none

def dupChild2 : BunDep :=
  .mk "p" "1.0.0" "1.0.0+X" ["r", "b"] [("g", "^3.0.0")] []
    (some [("g", dupGrandchild)]) none

def dupTree : BunDep :=
  .mk "root" "1.0.0" "." ["r"] [("p", "1"), ("q", "1")] []
    (some [("a", dupChild1), ("b", dupChild2)]) none

/-- Fixture: root requires `A`, `A` requires `B`, `B` requires `A` — a
dependency cycle between installed packages. -/
def fsCyclic : FS :=
  { manifests :=
      [(["root"], some ⟨some "root", some "1.0.0", some [("A", "^1.0.0")], none⟩),
       (["root", "node_modules", "A"],
        some ⟨some "A", some "1.0.0", some [("B", "^1.0.0")], none⟩),
       (["root", "node_modules", "B"],
        some ⟨some "B", some "1.0.0", some [("A", "^1.0.0")], none⟩)],
    existsPaths := [["root", "node_modules", "A"], ["root", "node_modules", "B"]],
    realpath := id }

/-- The `B` node the collector builds in the cyclic fixture: its `A` edge
is dropped by the in-progress guard. -/
def bNodeCyc : BunDep :=
  .mk "B" "1.0.0" "1.0.0" ["root", "node_modules", "B"] [("A", "^1.0.0")] [] none none

def aNodeCyc : BunDep :=
  .mk "A" "1.0.0" "1.0.0" ["root", "node_modules", "A"] [("B", "^1.0.0")] []
    (some [("B", bNodeCyc)]) none

def cyclicTree : BunDep :=
  .mk "root" "1.0.0" "." ["root"] [("A", "^1.0.0")] [] (some [("A", aNodeCyc)]) none

/-- Fixture: an empty filesystem — no alias can be located. -/
def fsEmpty : FS := { manifests := [], existsPaths := [], realpath := id }

/-- Fixture: alias `x` is installed under the root, but its directory has
no readable manifest. -/
def fsBadManifest : FS :=
  { manifests := [], existsPaths := [["r", "node_modules", "x"]], realpath := id }

/-! ## C9 -/

/-- C9: `parseDependenciesTree` fails on every input blob; it never
returns a dependency tree. -/
theorem parseDependenciesTree_always_fails :
    ∀ blob : String,
      parseDependenciesTree blob =
        .error "BunNodeModulesCollector does not parse external dependency trees" ∧
      ∀ t : BunDep, parseDependenciesTree blob ≠ .ok t := by
  intro blob
  exact ⟨rfl, fun t h => by simp [parseDependenciesTree] at h⟩

/-! ## C6 -/

theorem findGo_eq_specSearch (fs : FS) (resolvedRoot : Path) (name : String)
    (rev : List String) :
    findGo fs resolvedRoot name rev =
      ((specSearchDirs resolvedRoot rev).map
        (fun d => d ++ ["node_modules", name])).find? fs.pathExists := by
  induction rev with
  | nil =>
    rw [findGo, specSearchDirs]
    cases h : fs.pathExists (["node_modules", name]) <;>
      simp [List.find?, h]
  | cons s rest ih =>
    rw [findGo, specSearchDirs]
    cases h : fs.pathExists ((s :: rest).reverse ++ ["node_modules", name]) with
    | true => try simp at h; simp [List.find?, h]
    | false =>
      by_cases hr : (s :: rest).reverse = resolvedRoot
      · try simp at h
        try simp at hr
        have h2 : fs.pathExists (resolvedRoot ++ ["node_modules", name]) = false := by
          rw [← hr]; simpa using h
        simp [List.find?, h, hr, h2]
      · try simp at h
        try simp at hr
        simp [List.find?, h, hr, ih]

/-- C6: `findInstalledDependency` returns exactly the first existing
`<dir>/node_modules/<name>` candidate over the chain consisting of the
requester directory, each successive ancestor up to and including the
project root (or the filesystem root for a requester outside the root's
ancestor chain), followed by one final check at the resolved project
root; if no candidate exists it returns "not found" (`none`) rather than
an error. -/
theorem findInstalledDependency_first_match (fs : FS) (rootDir startDir : Path)
    (name : String) :
    findInstalledDependency fs rootDir startDir name =
      ((specSearchDirs rootDir startDir.reverse ++ [rootDir]).map
        (fun d => d ++ ["node_modules", name])).find? fs.pathExists := by
  rw [findInstalledDependency, List.map_append, List.find?_append,
    ← findGo_eq_specSearch]
  cases hgo : findGo fs rootDir name startDir.reverse with
  | some c => simp [Option.or]
  | none =>
    cases h : fs.pathExists (rootDir ++ ["node_modules", name]) <;>
      simp [List.find?, h, Option.or]

/-! ## C10 -/

/-- C10: a successfully built root node always carries the literal
reference `"."` (no allocator involvement), and when the root manifest
omits a name, the root's name defaults to `"."`, so the root identifier
is always `name@"."`. -/
theorem getDependenciesTree_root_identity (fs : FS) (rootDir : Path) (st st' : St)
    (m : Manifest) (tree : BunDep)
    (hroot : readPackageJson fs rootDir = .ok m)
    (hok : getDependenciesTree fs rootDir st = (st', .ok tree)) :
    tree.reference = "." ∧ tree.name = m.name.getD "." ∧
      (m.name = none → tree.name = ".") := by
  rw [getDependenciesTree] at hok
  simp only [hroot] at hok
  rcases hrc : resolveChildren fs rootDir [] rootDir (m.dependencies.getD [])
      (m.optionalDependencies.getD []) st with ⟨st1, res⟩
  simp only [hrc] at hok
  cases res with
  | error e => simp at hok
  | ok childMaps =>
    simp at hok
    rw [← hok.2]
    refine ⟨rfl, rfl, fun hn => ?_⟩
    simp [BunDep.name, hn]



/-- Witness for C10: the anonymous root gets identifier `.@"."`. -/
theorem getDependenciesTree_root_identity_witness :
    (BunDep.mk "." "0.0.0" "." ["w"] [] [] none none).reference = "." ∧
    (BunDep.mk "." "0.0.0" "." ["w"] [] [] none none).name =
      (Manifest.mk none none none none).name.getD "." ∧
    ((Manifest.mk none none none none).name = none →
      (BunDep.mk "." "0.0.0" "." ["w"] [] [] none none).name = ".") :=
  getDependenciesTree_root_identity fsRootOnly ["w"] St.empty St.empty
    ⟨none, none, none, none⟩ (BunDep.mk "." "0.0.0" "." ["w"] [] [] none none)
    rfl
    (by simp [getDependenciesTree, resolveChildren, resolveList, readPackageJson,
          fsRootOnly, alookup, toOpt])

/-! ## C2 -/

/-- Cache-hit branch of `createReference` (source lines 200–203). -/
theorem createReference_hit (n : String) (v : Option String) (p : Path) (st : St)
    (h : truthy (alookup st.referenceByPath p) = true) :
    createReference n v p st = ((alookup st.referenceByPath p).getD "", st) := by
  simp only [createReference, h, if_true]

/-- Fresh-key branch of `createReference` (source lines 209–213). -/
theorem createReference_fresh (n : String) (v : Option String) (p : Path) (st : St)
    (h : truthy (alookup st.referenceByPath p) = false)
    (hk : alookup st.pathByNameVersion (n ++ "@" ++ v.getD "0.0.0") = none) :
    createReference n v p st =
      (v.getD "0.0.0",
       { st with
          pathByNameVersion :=
            (n ++ "@" ++ v.getD "0.0.0", p) :: st.pathByNameVersion
          referenceByPath := (p, v.getD "0.0.0") :: st.referenceByPath }) := by
  simp only [createReference, h, Bool.false_eq_true, if_false, hk]

/-- Re-entrant branch of `createReference` (source lines 215–218). -/
theorem createReference_same (n : String) (v : Option String) (p : Path) (st : St)
    (h : truthy (alookup st.referenceByPath p) = false)
    (hk : alookup st.pathByNameVersion (n ++ "@" ++ v.getD "0.0.0") = some p) :
    createReference n v p st =
      (v.getD "0.0.0",
       { st with referenceByPath := (p, v.getD "0.0.0") :: st.referenceByPath }) := by
  simp only [createReference, h, Bool.false_eq_true, if_false, hk, if_pos]

/-- Collision branch of `createReference` (source lines 220–223). -/
theorem createReference_clash (n : String) (v : Option String) (p q : Path) (st : St)
    (h : truthy (alookup st.referenceByPath p) = false)
    (hk : alookup st.pathByNameVersion (n ++ "@" ++ v.getD "0.0.0") = some q)
    (hq : q ≠ p) :
    createReference n v p st =
      (v.getD "0.0.0" ++ "+" ++ sha1Hex8 (pathToString p),
       { st with referenceByPath :=
          (p, v.getD "0.0.0" ++ "+" ++ sha1Hex8 (pathToString p)) ::
            st.referenceByPath }) := by
  simp only [createReference, h, Bool.false_eq_true, if_false, hk, hq, if_neg]

/-- C2: two distinct real paths allocated under the same fresh
`name@version`: the first receives the plain version string, the second
the version plus `"+"` and the 8-hex-character SHA-1 digest of its own
path (a pure function of that path), and the two references are
distinct. -/
theorem createReference_disambiguates (n v : String) (p1 p2 : Path) (st : St)
    (hne : p1 ≠ p2)
    (h1 : truthy (alookup st.referenceByPath p1) = false)
    (h2 : truthy (alookup st.referenceByPath p2) = false)
    (hkey : alookup st.pathByNameVersion (n ++ "@" ++ v) = none) :
    (createReference n (some v) p1 st).1 = v ∧
    (createReference n (some v) p2 (createReference n (some v) p1 st).2).1 =
      v ++ "+" ++ sha1Hex8 (pathToString p2) ∧
    (createReference n (some v) p1 st).1 ≠
      (createReference n (some v) p2 (createReference n (some v) p1 st).2).1 ∧
    (sha1Hex8 (pathToString p2)).length = 8 ∧
    (∀ c ∈ (sha1Hex8 (pathToString p2)).data, c ∈ hexDigits) := by
  have hfirst := createReference_fresh n (some v) p1 st h1 (by simpa using hkey)
  simp only [Option.getD_some] at hfirst
  have hsecond : (createReference n (some v) p2 (createReference n (some v) p1 st).2).1 =
      v ++ "+" ++ sha1Hex8 (pathToString p2) := by
    rw [hfirst]
    have hclash := createReference_clash n (some v) p2 p1
      ({ st with
          pathByNameVersion := (n ++ "@" ++ v, p1) :: st.pathByNameVersion
          referenceByPath := (p1, v) :: st.referenceByPath })
      (by simpa [alookup_cons, hne] using h2)
      (by simp [alookup_cons])
      hne
    simp only [Option.getD_some] at hclash
    rw [hclash]
  refine ⟨by rw [hfirst], hsecond, ?_, sha1Hex8_length _, sha1Hex8_hex _⟩
  rw [hsecond, hfirst]
  intro hcontra
  have hlen := congrArg String.length hcontra
  simp only [String.length_append, sha1Hex8_length] at hlen
  omega

/-- Witness for C2 at concrete inputs. -/
theorem createReference_disambiguates_witness :
    (createReference "left-pad" (some "1.0.0") ["a"] St.empty).1 = "1.0.0" ∧
    (createReference "left-pad" (some "1.0.0") ["b"]
        (createReference "left-pad" (some "1.0.0") ["a"] St.empty).2).1 =
      "1.0.0" ++ "+" ++ sha1Hex8 (pathToString ["b"]) ∧
    (createReference "left-pad" (some "1.0.0") ["a"] St.empty).1 ≠
      (createReference "left-pad" (some "1.0.0") ["b"]
        (createReference "left-pad" (some "1.0.0") ["a"] St.empty).2).1 ∧
    (sha1Hex8 (pathToString ["b"])).length = 8 ∧
    (∀ c ∈ (sha1Hex8 (pathToString ["b"])).data, c ∈ hexDigits) :=
  createReference_disambiguates "left-pad" "1.0.0" ["a"] ["b"] St.empty
    (by decide) rfl rfl rfl

/-! ## C5 -/



theorem createReference_stable (n : String) (v : Option String) (p : Path) (st : St) :
    (createReference n v p (createReference n v p st).2).1 =
      (createReference n v p st).1 := by
  cases ht : truthy (alookup st.referenceByPath p) with
  | true =>
    simp [createReference_hit n v p st ht]
  | false =>
    cases hk : alookup st.pathByNameVersion (n ++ "@" ++ v.getD "0.0.0") with
    | none =>
      have h1 := createReference_fresh n v p st ht hk
      rw [h1]
      by_cases hnv : v.getD "0.0.0" = ""
      · rw [createReference_same n v p _ (by simp [alookup_cons, truthy, hnv])
          (by simp [alookup_cons])]
      · rw [createReference_hit n v p _ (by simp [alookup_cons, truthy, hnv])]
        simp [alookup_cons]
    | some q =>
      by_cases hq : q = p
      · rw [hq] at hk
        have h1 := createReference_same n v p st ht hk
        rw [h1]
        by_cases hnv : v.getD "0.0.0" = ""
        · rw [createReference_same n v p _ (by simp [alookup_cons, truthy, hnv])
            (by simp [alookup_cons, hk])]
        · rw [createReference_hit n v p _ (by simp [alookup_cons, truthy, hnv])]
          simp [alookup_cons]
      · have h1 := createReference_clash n v p q st ht hk hq
        rw [h1]
        have hplus : (v.getD "0.0.0" ++ "+" ++ sha1Hex8 (pathToString p)) ≠ "" := by
          intro hcontra
          have := congrArg String.length hcontra
          simp [String.length_append, sha1Hex8_length] at this
        rw [createReference_hit n v p _ (by simp [alookup_cons, truthy, hplus])]
        simp [alookup_cons]

/-- C5: reference allocation is idempotent per real path — a second call
with the same arguments returns the same reference, and so does the
`k`-fold repetition for every `k`. -/
theorem createReference_idempotent (n : String) (v : Option String) (p : Path) (st : St) :
    (createReference n v p (createReference n v p st).2).1 =
      (createReference n v p st).1 ∧
    ∀ k, (createReference n v p (allocIter n v p k st)).1 =
      (createReference n v p st).1 := by
  refine ⟨createReference_stable n v p st, fun k => ?_⟩
  induction k with
  | zero => rfl
  | succ k ih =>
    calc (createReference n v p (allocIter n v p (k + 1) st)).1
        = (createReference n v p (createReference n v p (allocIter n v p k st)).2).1 := rfl
      _ = (createReference n v p (allocIter n v p k st)).1 :=
          createReference_stable n v p (allocIter n v p k st)
      _ = (createReference n v p st).1 := ih

/-! ## C1 -/

theorem appendChildren_fst (entries : List (String × BunDep))
    (manifest : List (String × String)) (pg : PG) :
    (appendChildren entries manifest pg).1 =
      (entries.filter (fun e => truthy (alookup manifest e.1))).map
        (fun e => depKey e.2) := by
  induction entries generalizing pg with
  | nil => rw [appendChildren]; rfl
  | cons hd rest ih =>
    obtain ⟨aliasName, dep⟩ := hd
    rw [appendChildren]
    cases ht : truthy (alookup manifest aliasName) with
    | true => simp [ht, List.filter_cons, ih, depKey]
    | false => simp [ht, List.filter_cons, ih]

/-- C1 (amended): if the Production Graph already has an entry for `id`,
extraction returns it unchanged; otherwise the edge list stored under `id`
contains the edge to a resolved child's `name@reference` exactly when that
child's alias maps to a truthy (present and non-empty) version-range
string in the node's own corresponding manifest map. -/
theorem extractProductionDependencyGraph_filtered (tree : BunDep) (dependencyId : String)
    (pg : PG) :
    ((alookup pg dependencyId).isSome = true →
      extractProductionDependencyGraph tree dependencyId pg = pg) ∧
    (alookup pg dependencyId = none →
      alookup (extractProductionDependencyGraph tree dependencyId pg) dependencyId =
        some (prodEdges tree)) := by
  rcases tree with ⟨n, v, r, p, md, mod, deps, odeps⟩
  constructor
  · intro hmem
    rw [extractProductionDependencyGraph, if_pos hmem]
  · intro hnone
    rw [extractProductionDependencyGraph, if_neg (by simp [hnone])]
    simp only [alookup_cons, if_pos rfl]
    rw [appendChildren_fst, appendChildren_fst]
    rfl





/-- C1 counterexample: alias `x` is present as a key of
`manifestDependencies` and present in the resolved dependencies map, yet
the stored edge list is empty — the code tests JavaScript truthiness of
`manifest[alias]`, not key presence, so an empty version-range string
drops the edge. -/
theorem extract_key_presence_refuted :
    "x" ∈ nodeEmptyRange.manifestDependencies.map Prod.fst ∧
    ("x", childX) ∈ optEntries nodeEmptyRange.dependencies ∧
    alookup (extractProductionDependencyGraph nodeEmptyRange "parent@1.0.0" [])
      "parent@1.0.0" = some [] ∧
    depKey childX ∉ ([] : List String) := by
  refine ⟨by simp [nodeEmptyRange, BunDep.manifestDependencies], by
    simp [nodeEmptyRange, BunDep.dependencies, optEntries], ?_, by simp⟩
  simp [extractProductionDependencyGraph, nodeEmptyRange, childX, alookup,
    appendChildren, truthy, optEntries]

/-- Witness for C1 at a concrete node with one truthy and one absent
alias: only the truthy one is recorded. -/
theorem extractProductionDependencyGraph_filtered_witness :
    alookup
      (extractProductionDependencyGraph
        (.mk "parent" "1.0.0" "1.0.0" ["r"] [("x", "^1.0.0")] []
          (some [("x", childX), ("y", .mk "y" "2.0.0" "2.0.0" ["r", "node_modules", "y"]
            [] [] none none)]) none)
        "parent@1.0.0" []) "parent@1.0.0" =
      some (prodEdges
        (.mk "parent" "1.0.0" "1.0.0" ["r"] [("x", "^1.0.0")] []
          (some [("x", childX), ("y", .mk "y" "2.0.0" "2.0.0" ["r", "node_modules", "y"]
            [] [] none none)]) none)) :=
  (extractProductionDependencyGraph_filtered _ "parent@1.0.0" []).2 rfl



theorem mem_subNodesL_of_entry {entries : List (String × BunDep)} {a : String}
    {x : BunDep} (h : (a, x) ∈ entries) :
    x ∈ subNodesL entries ∧ ∀ e ∈ subNodes x, e ∈ subNodesL entries := by
  induction entries with
  | nil => cases h
  | cons hd rest ih =>
    obtain ⟨b, y⟩ := hd
    rw [subNodesL]
    rcases List.mem_cons.mp h with he | htl
    · cases he
      exact ⟨List.mem_cons_self _ _,
        fun e he2 => List.mem_cons_of_mem _ (List.mem_append_left _ he2)⟩
    · obtain ⟨h1, h2⟩ := ih htl
      exact ⟨List.mem_cons_of_mem _ (List.mem_append_right _ h1),
        fun e he2 => List.mem_cons_of_mem _ (List.mem_append_right _ (h2 e he2))⟩

mutual

theorem subNodes_closed (t : BunDep) :
    ∀ x ∈ subNodes t, ∀ y ∈ subNodes x, y ∈ subNodes t := by
  rcases t with ⟨n, v, r, p, md, mod, deps, odeps⟩
  intro x hx y hy
  rw [subNodes] at hx ⊢
  rcases List.mem_append.mp hx with h1 | h1
  · exact List.mem_append_left _ (subNodesL_closed (optEntries deps) x h1 y hy)
  · exact List.mem_append_right _ (subNodesL_closed (optEntries odeps) x h1 y hy)
termination_by sizeOf t
decreasing_by
  all_goals refine Nat.lt_of_le_of_lt (sizeOf_optEntries_le _) ?_ <;> simp <;> omega

theorem subNodesL_closed (entries : List (String × BunDep)) :
    ∀ x ∈ subNodesL entries, ∀ y ∈ subNodes x, y ∈ subNodesL entries := by
  match entries with
  | [] => intro x hx; rw [subNodesL] at hx; cases hx
  | (a, d) :: rest =>
    intro x hx y hy
    rw [subNodesL] at hx ⊢
    rcases List.mem_cons.mp hx with he | h1
    · subst he
      exact List.mem_cons_of_mem _ (List.mem_append_left _ hy)
    · rcases List.mem_append.mp h1 with h2 | h2
      · exact List.mem_cons_of_mem _
          (List.mem_append_left _ (subNodes_closed d x h2 y hy))
      · exact List.mem_cons_of_mem _
          (List.mem_append_right _ (subNodesL_closed rest x h2 y hy))
termination_by sizeOf entries
decreasing_by
  all_goals simp <;> omega

end

theorem alookup_isSome_of_mem_keys {κ α : Type} [DecidableEq κ] {l : List (κ × α)}
    {k : κ} (h : k ∈ l.map Prod.fst) : (alookup l k).isSome = true := by
  induction l with
  | nil => simp at h
  | cons hd tl ih =>
    obtain ⟨k', v'⟩ := hd
    by_cases he : k' = k
    · simp [alookup, he]
    · rw [alookup_cons, if_neg he]
      rcases List.mem_cons.mp h with h1 | h1


      · exact absurd h1.symm he
      · exact ih h1

theorem mem_keys_of_alookup_isSome {κ α : Type} [DecidableEq κ] {l : List (κ × α)}
    {k : κ} (h : (alookup l k).isSome = true) : k ∈ l.map Prod.fst := by
  cases hl : alookup l k with
  | none => rw [hl] at h; simp at h
  | some v => exact alookup_some_mem hl

/-! C4 part 1: the Transitive Collector never overwrites an existing
entry of the map. -/

mutual

theorem collectAll_preserves (t : BunDep) (all : List (String × BunDep)) (k : String)
    (v : BunDep) (h : alookup all k = some v) :
    alookup (collectAllDependencies t all) k = some v := by
  rcases t with ⟨n, vv, r, p, md, mod, deps, odeps⟩
  rw [collectAllDependencies]
  exact collectList_preserves _ _ k v (collectList_preserves _ _ k v h)
termination_by sizeOf t
decreasing_by
  all_goals refine Nat.lt_of_le_of_lt (sizeOf_optEntries_le _) ?_ <;> simp <;> omega

theorem collectList_preserves (entries : List (String × BunDep))
    (all : List (String × BunDep)) (k : String) (v : BunDep)
    (h : alookup all k = some v) :
    alookup (collectDepList entries all) k = some v := by
  match entries with
  | [] => rw [collectDepList]; exact h
  | (a, d) :: rest =>
    rw [collectDepList]
    cases hpres : (alookup all (d.name ++ "@" ++ d.reference)).isSome with
    | true =>
      rw [if_pos rfl]
      exact collectList_preserves rest all k v h
    | false =>
      rw [if_neg (by simp)]
      have hne : d.name ++ "@" ++ d.reference ≠ k := by
        intro he
        rw [he, h] at hpres
        simp at hpres
      have h' : alookup ((d.name ++ "@" ++ d.reference, d) :: all) k = some v := by
        rw [alookup_cons, if_neg hne]
        exact h
      exact collectList_preserves rest _ k v (collectAll_preserves d _ k v h')
termination_by sizeOf entries
decreasing_by
  all_goals simp <;> omega

end

/-! C4 part 2: the guarded insert keeps the map's keys duplicate-free. -/

mutual

theorem collectAll_nodup (t : BunDep) (all : List (String × BunDep))
    (h : (all.map Prod.fst).Nodup) :
    ((collectAllDependencies t all).map Prod.fst).Nodup := by
  rcases t with ⟨n, vv, r, p, md, mod, deps, odeps⟩
  rw [collectAllDependencies]
  exact collectList_nodup _ _ (collectList_nodup _ _ h)
termination_by sizeOf t
decreasing_by
  all_goals refine Nat.lt_of_le_of_lt (sizeOf_optEntries_le _) ?_ <;> simp <;> omega

theorem collectList_nodup (entries : List (String × BunDep))
    (all : List (String × BunDep)) (h : (all.map Prod.fst).Nodup) :
    ((collectDepList entries all).map Prod.fst).Nodup := by
  match entries with
  | [] => rw [collectDepList]; exact h
  | (a, d) :: rest =>
    rw [collectDepList]
    cases hpres : (alookup all (d.name ++ "@" ++ d.reference)).isSome with
    | true =>
      rw [if_pos rfl]
      exact collectList_nodup rest all h
    | false =>
      rw [if_neg (by simp)]
      have hnotin : d.name ++ "@" ++ d.reference ∉ all.map Prod.fst := by
        intro hmem
        rw [alookup_isSome_of_mem_keys hmem] at hpres
        cases hpres
      have h' : (((d.name ++ "@" ++ d.reference, d) :: all).map Prod.fst).Nodup := by
        rw [List.map_cons, List.nodup_cons]
        exact ⟨hnotin, h⟩
      exact collectList_nodup rest _ (collectAll_nodup d _ h')
termination_by sizeOf entries
decreasing_by
  all_goals simp <;> omega

end

theorem mem_subNodesL_elim {e : BunDep} {entries : List (String × BunDep)}
    (h : e ∈ subNodesL entries) :
    ∃ p ∈ entries, e = p.2 ∨ e ∈ subNodes p.2 := by
  induction entries with
  | nil => rw [subNodesL] at h; cases h
  | cons hd rest ih =>
    obtain ⟨a, d⟩ := hd
    rw [subNodesL] at h
    rcases List.mem_cons.mp h with he | h1
    · exact ⟨(a, d), List.mem_cons_self _ _, Or.inl he⟩
    · rcases List.mem_append.mp h1 with h2 | h2
      · exact ⟨(a, d), List.mem_cons_self _ _, Or.inr h2⟩
      · obtain ⟨p, hp, hor⟩ := ih h2
        exact ⟨p, List.mem_cons_of_mem _ hp, hor⟩



theorem sizeOf_snd_lt_mk {p : String × BunDep} {deps odeps : Option (List (String × BunDep))}
    (h : p ∈ optEntries deps ∨ p ∈ optEntries odeps)
    (n v r : String) (pa : Path) (md mod : List (String × String)) :
    sizeOf p.2 < sizeOf (BunDep.mk n v r pa md mod deps odeps) := by
  have hp : sizeOf p.2 < sizeOf p := by
    obtain ⟨a, x⟩ := p
    simp
  rcases h with h | h
  · have h1 : sizeOf p < sizeOf (optEntries deps) := List.sizeOf_lt_of_mem h
    have h2 := sizeOf_optEntries_le deps
    have h3 : sizeOf deps < sizeOf (BunDep.mk n v r pa md mod deps odeps) := by
      simp <;> omega
    omega
  · have h1 : sizeOf p < sizeOf (optEntries odeps) := List.sizeOf_lt_of_mem h
    have h2 := sizeOf_optEntries_le odeps
    have h3 : sizeOf odeps < sizeOf (BunDep.mk n v r pa md mod deps odeps) := by
      simp <;> omega
    omega

/-! C4 part 3 (completeness): under key-injectivity of the reachable
nodes, every reachable node's key ends up in the map.  The pending list
`S` holds the nodes whose subtrees are still being collected by enclosing
calls; the size hypothesis records that pending nodes are strictly larger
than the current one, so a node can never be its own pending ancestor. -/

mutual

theorem collectAll_complete (R : List BunDep) (hinj : keyInj R)
    (hclosed : ∀ x ∈ R, ∀ y ∈ subNodes x, y ∈ R)
    (d : BunDep) (S : List BunDep) (all : List (String × BunDep))
    (hdR : d ∈ R)
    (hctx : pendingOK R (d :: S) all)
    (hsize : ∀ s ∈ S, sizeOf d < sizeOf s) :
    (∀ k ∈ all.map Prod.fst, k ∈ (collectAllDependencies d all).map Prod.fst) ∧
    (∀ e ∈ subNodes d, depKey e ∈ (collectAllDependencies d all).map Prod.fst) ∧
    pendingOK R S (collectAllDependencies d all) := by
  rcases hd : d with ⟨n, v, r, pa, md, mod, deps, odeps⟩
  rw [collectAllDependencies]
  have hsubs : ∀ p ∈ optEntries deps, p.2 ∈ subNodes d := by
    intro p hp
    obtain ⟨a, x⟩ := p
    rw [hd, subNodes]
    exact List.mem_append_left _ (mem_subNodesL_of_entry hp).1
  have hsubs2 : ∀ p ∈ optEntries odeps, p.2 ∈ subNodes d := by
    intro p hp
    obtain ⟨a, x⟩ := p
    rw [hd, subNodes]
    exact List.mem_append_right _ (mem_subNodesL_of_entry hp).1
  have hctx' : pendingOK R (BunDep.mk n v r pa md mod deps odeps :: S) all := hd ▸ hctx
  obtain ⟨mono1, cov1, pend1⟩ :=
    collectList_complete R hinj hclosed (optEntries deps)
      (BunDep.mk n v r pa md mod deps odeps :: S) all
      (fun p hp => hclosed d (hd ▸ hdR) p.2 (hsubs p hp))
      hctx'
      (by
        intro s hS p hp
        rcases List.mem_cons.mp hS with hs1 | hs2
        · rw [hs1]; exact sizeOf_snd_lt_mk (Or.inl hp) n v r pa md mod
        · have h1 : sizeOf p.2 < sizeOf (BunDep.mk n v r pa md mod deps odeps) :=
            sizeOf_snd_lt_mk (Or.inl hp) n v r pa md mod
          exact Nat.lt_trans h1 (hd ▸ hsize s hs2))
  obtain ⟨mono2, cov2, pend2⟩ :=
    collectList_complete R hinj hclosed (optEntries odeps)
      (BunDep.mk n v r pa md mod deps odeps :: S)
      (collectDepList (optEntries deps) all)
      (fun p hp => hclosed d (hd ▸ hdR) p.2 (hsubs2 p hp))
      pend1
      (by
        intro s hS p hp
        rcases List.mem_cons.mp hS with hs1 | hs2
        · rw [hs1]; exact sizeOf_snd_lt_mk (Or.inr hp) n v r pa md mod
        · have h1 : sizeOf p.2 < sizeOf (BunDep.mk n v r pa md mod deps odeps) :=
            sizeOf_snd_lt_mk (Or.inr hp) n v r pa md mod
          exact Nat.lt_trans h1 (hd ▸ hsize s hs2))
  have hcover : ∀ e ∈ subNodes (BunDep.mk n v r pa md mod deps odeps),
      depKey e ∈ ((collectDepList (optEntries odeps)
        (collectDepList (optEntries deps) all)).map Prod.fst) := by
    intro e he
    rw [subNodes] at he
    rcases List.mem_append.mp he with h1 | h1
    · obtain ⟨p, hp, hor⟩ := mem_subNodesL_elim h1
      rcases hor with rfl | hsub
      · exact mono2 _ (cov1 p hp).1
      · exact mono2 _ ((cov1 p hp).2 e hsub)
    · obtain ⟨p, hp, hor⟩ := mem_subNodesL_elim h1
      rcases hor with rfl | hsub
      · exact (cov2 p hp).1
      · exact (cov2 p hp).2 e hsub
  refine ⟨fun k hk => mono2 _ (mono1 _ hk), hcover, ?_⟩
  intro d' hd'R hkey
  rcases pend2 d' hd'R hkey with hS | hsub
  · rcases List.mem_cons.mp hS with hs1 | hs2
    · exact Or.inr (hs1 ▸ hcover)
    · exact Or.inl hs2
  · exact Or.inr hsub
termination_by sizeOf d
decreasing_by
  all_goals subst hd
  all_goals refine Nat.lt_of_le_of_lt (sizeOf_optEntries_le _) ?_ <;> simp <;> omega

theorem collectList_complete (R : List BunDep) (hinj : keyInj R)
    (hclosed : ∀ x ∈ R, ∀ y ∈ subNodes x, y ∈ R)
    (entries : List (String × BunDep)) (S : List BunDep)
    (all : List (String × BunDep))
    (hentR : ∀ p ∈ entries, p.2 ∈ R)
    (hctx : pendingOK R S all)
    (hsize : ∀ s ∈ S, ∀ p ∈ entries, sizeOf p.2 < sizeOf s) :
    (∀ k ∈ all.map Prod.fst, k ∈ (collectDepList entries all).map Prod.fst) ∧
    (∀ p ∈ entries, depKey p.2 ∈ (collectDepList entries all).map Prod.fst ∧
      ∀ e ∈ subNodes p.2, depKey e ∈ (collectDepList entries all).map Prod.fst) ∧
    pendingOK R S (collectDepList entries all) := by
  match entries with
  | [] =>
    rw [collectDepList]
    refine ⟨fun k hk => hk, ?_, hctx⟩
    intro p hp
    cases hp
  | (a, x) :: rest =>
    rw [collectDepList]
    have hxR : x ∈ R := hentR (a, x) (List.mem_cons_self _ _)
    cases hpres : (alookup all (x.name ++ "@" ++ x.reference)).isSome with
    | true =>
      rw [if_pos rfl]
      have hkeymem : depKey x ∈ all.map Prod.fst := mem_keys_of_alookup_isSome hpres
      have hsub : ∀ e ∈ subNodes x, depKey e ∈ all.map Prod.fst := by
        rcases hctx x hxR hkeymem with hxS | hsub
        · exact absurd (hsize x hxS (a, x) (List.mem_cons_self _ _)) (lt_irrefl _)
        · exact hsub
      obtain ⟨monoR, covR, pendR⟩ :=
        collectList_complete R hinj hclosed rest S all
          (fun p hp => hentR p (List.mem_cons_of_mem _ hp))
          hctx
          (fun s hS p hp => hsize s hS p (List.mem_cons_of_mem _ hp))
      refine ⟨monoR, ?_, pendR⟩
      intro p hp
      rcases List.mem_cons.mp hp with he | hp2
      · cases he
        exact ⟨monoR _ hkeymem, fun e he2 => monoR _ (hsub e he2)⟩
      · exact covR p hp2
    | false =>
      rw [if_neg (by simp)]
      have hctx' : pendingOK R (x :: S)
          ((x.name ++ "@" ++ x.reference, x) :: all) := by
        intro d' hd' hk
        rw [List.map_cons] at hk
        rcases List.mem_cons.mp hk with hk1 | hk2
        · left
          have hde : d' = x := hinj d' hd' x hxR hk1
          exact hde ▸ List.mem_cons_self _ _
        · rcases hctx d' hd' hk2 with hS | hsub
          · exact Or.inl (List.mem_cons_of_mem _ hS)
          · refine Or.inr fun e he => ?_
            rw [List.map_cons]
            exact List.mem_cons_of_mem _ (hsub e he)
      obtain ⟨monoA, covA, pendA⟩ :=
        collectAll_complete R hinj hclosed x S
          ((x.name ++ "@" ++ x.reference, x) :: all) hxR hctx'
          (fun s hS => hsize s hS (a, x) (List.mem_cons_self _ _))
      obtain ⟨monoR, covR, pendR⟩ :=
        collectList_complete R hinj hclosed rest S
          (collectAllDependencies x ((x.name ++ "@" ++ x.reference, x) :: all))
          (fun p hp => hentR p (List.mem_cons_of_mem _ hp))
          pendA
          (fun s hS p hp => hsize s hS p (List.mem_cons_of_mem _ hp))
      refine ⟨?_, ?_, pendR⟩
      · intro k hk
        refine monoR _ (monoA _ ?_)
        rw [List.map_cons]
        exact List.mem_cons_of_mem _ hk
      · intro p hp
        rcases List.mem_cons.mp hp with he | hp2
        · cases he
          constructor
          · refine monoR _ (monoA _ ?_)
            rw [List.map_cons]
            exact List.mem_cons_self _ _
          · exact fun e he2 => monoR _ (covA e he2)
        · exact covR p hp2
termination_by sizeOf entries
decreasing_by
  all_goals simp <;> omega

end

/-- C4 (amended): the Transitive Collector inserts under `name@reference`
only when the key is absent, so entries are never overwritten and the
map's keys stay duplicate-free; and provided any two nodes of the tree
sharing a `name@reference` are identical (key-injectivity — true of
builder output except for deliberately colliding references), every
package reachable from the root tree appears in the map, hence exactly
once, regardless of how many parents reference it. -/
theorem collectAllDependencies_exactly_once (T : BunDep)
    (hinj : keyInj (T :: subNodes T)) :
    (∀ e ∈ subNodes T, depKey e ∈ (collectAllDependencies T []).map Prod.fst) ∧
    ((collectAllDependencies T []).map Prod.fst).Nodup ∧
    (∀ (t : BunDep) (all : List (String × BunDep)) (k : String) (v : BunDep),
      alookup all k = some v → alookup (collectAllDependencies t all) k = some v) := by
  refine ⟨?_, collectAll_nodup T [] (by simp),
    fun t all k v h => collectAll_preserves t all k v h⟩
  have hclosed : ∀ x ∈ T :: subNodes T, ∀ y ∈ subNodes x, y ∈ T :: subNodes T := by
    intro x hx y hy
    rcases List.mem_cons.mp hx with rfl | hx2
    · exact List.mem_cons_of_mem _ hy
    · exact List.mem_cons_of_mem _ (subNodes_closed T x hx2 y hy)
  obtain ⟨_, hcov, _⟩ :=
    collectAll_complete (T :: subNodes T) hinj hclosed T [] []
      (List.mem_cons_self _ _)
      (by intro d' hd' hk; simp at hk)
      (by intro s hS; cases hS)
  exact hcov



/-- C4 counterexample: with two distinct reachable nodes sharing one
`name@reference`, the presence check skips the second node's whole
subtree, so a reachable package (`g@3.0.0`) never appears in the
Transitive Map — the claim's "every distinct installed package reachable
from the root tree appears exactly once" fails as stated. -/
theorem collect_misses_reachable_on_key_clash :
    dupGrandchild ∈ subNodes dupTree ∧
    depKey dupGrandchild ∉ (collectAllDependencies dupTree []).map Prod.fst := by
  constructor
  · simp [subNodes, subNodesL, dupTree, dupChild1, dupChild2, dupGrandchild, optEntries]
  · simp [collectAllDependencies, collectDepList, dupTree, dupChild1, dupChild2,
      dupGrandchild, optEntries, alookup, depKey, BunDep.name, BunDep.reference]

theorem cyclicTree_keyInj : keyInj (cyclicTree :: subNodes cyclicTree) := by
  intro d1 h1 d2 h2 heq
  simp only [subNodes, subNodesL, cyclicTree, aNodeCyc, bNodeCyc, optEntries,
    List.append_nil, List.mem_cons, List.mem_singleton, List.not_mem_nil,
    or_false] at h1 h2
  rcases h1 with rfl | rfl | rfl <;> rcases h2 with rfl | rfl | rfl <;>
    first
    | rfl
    | exact absurd heq (by decide)

/-- Witness for C4 on the cyclic fixture tree (whose node keys are
pairwise distinct). -/
theorem collectAllDependencies_exactly_once_witness :
    depKey bNodeCyc ∈ (collectAllDependencies cyclicTree []).map Prod.fst ∧
    ((collectAllDependencies cyclicTree []).map Prod.fst).Nodup :=
  ⟨(collectAllDependencies_exactly_once cyclicTree cyclicTree_keyInj).1
      bNodeCyc
      (by simp [subNodes, subNodesL, cyclicTree, aNodeCyc, bNodeCyc, optEntries]),
   (collectAllDependencies_exactly_once cyclicTree cyclicTree_keyInj).2.1⟩

/-! ## C3

Termination itself is established by construction: `loadDependency` and
`resolveChildren` are defined by well-founded recursion on `freeGood`, the
number of readable-manifest directories not yet marked in-progress, which
decreases precisely because an in-progress real path is never re-entered. -/



/-- C3: a real path currently marked in-progress is never re-entered —
the re-encounter returns whatever is currently cached for that path
(possibly nothing) without recursing; and on the concrete cyclic layout
`root → A → B → A` the build terminates with a tree whose collection puts
both `A` and `B` in the Transitive Map exactly once. -/
theorem cycle_guard_and_termination :
    (∀ (fs : FS) (rootDir : Path) (pr : List Path) (aliasName : String)
        (requesterDir : Path) (isOptional : Bool) (st : St) (installedPath : Path),
      findInstalledDependency fs rootDir requesterDir aliasName = some installedPath →
      fs.realpath installedPath ∈ pr →
      loadDependency fs rootDir pr aliasName requesterDir isOptional st =
        (st, .ok (alookup st.dependencyCacheByPath (fs.realpath installedPath)))) ∧
    (getDependenciesTree fsCyclic ["root"] St.empty).2 = .ok cyclicTree ∧
    ((collectAllDependencies cyclicTree []).map Prod.fst) = ["B@1.0.0", "A@1.0.0"] ∧
    ((collectAllDependencies cyclicTree []).map Prod.fst).count "A@1.0.0" = 1 ∧
    ((collectAllDependencies cyclicTree []).map Prod.fst).count "B@1.0.0" = 1 := by
  have hkeys : ((collectAllDependencies cyclicTree []).map Prod.fst) =
      ["B@1.0.0", "A@1.0.0"] := by
    simp [collectAllDependencies, collectDepList, cyclicTree, aNodeCyc, bNodeCyc,
      alookup, optEntries, BunDep.name, BunDep.reference]
  refine ⟨?_, ?_, hkeys, by rw [hkeys]; rfl, by rw [hkeys]; rfl⟩
  · intro fs rootDir pr aliasName requesterDir isOptional st installedPath hfi hp
    rw [loadDependency, hfi]
    cases hc : alookup st.dependencyCacheByPath (fs.realpath installedPath) with
    | some cached => simp [hc]
    | none =>
      simp [hc]
      intro hnp
      exact absurd hp hnp
  · simp [getDependenciesTree, resolveChildren, resolveList, loadDependency,
      readPackageJson, fsCyclic, alookup, findInstalledDependency, findGo, FS.pathExists,
      St.empty, createReference, truthy, toOpt, optEntries, cyclicTree, aNodeCyc, bNodeCyc]

/-- Witness for C3's guard at a concrete in-progress path. -/
theorem cycle_guard_and_termination_witness :
    loadDependency fsCyclic ["root"] [["root", "node_modules", "A"]] "A"
      ["root", "node_modules", "B"] false St.empty = (St.empty, .ok none) :=
  cycle_guard_and_termination.1 fsCyclic ["root"] [["root", "node_modules", "A"]]
    "A" ["root", "node_modules", "B"] false St.empty ["root", "node_modules", "A"]
    (by decide) (by decide)

/-! ## C7 -/

/-- C7: an alias with no installed path is non-fatal: required aliases log
one diagnostic and are omitted, optional aliases are omitted silently, and
in both cases the remaining sibling aliases are processed from the same
state; resolved maps only ever contain processed aliases. -/
theorem unresolved_alias_omitted (fs : FS) (rootDir : Path) (pr : List Path)
    (requesterDir : Path) :
    (∀ aliasName st, findInstalledDependency fs rootDir requesterDir aliasName = none →
      loadDependency fs rootDir pr aliasName requesterDir false st =
        ({ st with logs :=
            ⟨aliasName, requesterDir, "bun collector could not locate dependency"⟩ ::
              st.logs },
         .ok none)) ∧
    (∀ aliasName st, findInstalledDependency fs rootDir requesterDir aliasName = none →
      loadDependency fs rootDir pr aliasName requesterDir true st = (st, .ok none)) ∧
    (∀ aliasName vr rest st,
      findInstalledDependency fs rootDir requesterDir aliasName = none →
      resolveList fs rootDir pr requesterDir false ((aliasName, vr) :: rest) st =
        resolveList fs rootDir pr requesterDir false rest
          ({ st with logs :=
              ⟨aliasName, requesterDir, "bun collector could not locate dependency"⟩ ::
                st.logs })) ∧
    (∀ aliasName vr rest st,
      findInstalledDependency fs rootDir requesterDir aliasName = none →
      resolveList fs rootDir pr requesterDir true ((aliasName, vr) :: rest) st =
        resolveList fs rootDir pr requesterDir true rest st) ∧
    (∀ isOptional aliases st st' l,
      resolveList fs rootDir pr requesterDir isOptional aliases st = (st', .ok l) →
      ∀ x ∈ l.map Prod.fst, x ∈ aliases.map Prod.fst) := by
  have hreq : ∀ aliasName st,
      findInstalledDependency fs rootDir requesterDir aliasName = none →
      loadDependency fs rootDir pr aliasName requesterDir false st =
        ({ st with logs :=
            ⟨aliasName, requesterDir, "bun collector could not locate dependency"⟩ ::
              st.logs },
         .ok none) := by
    intro aliasName st hnf
    rw [loadDependency, hnf]
    simp
  have hopt : ∀ aliasName st,
      findInstalledDependency fs rootDir requesterDir aliasName = none →
      loadDependency fs rootDir pr aliasName requesterDir true st = (st, .ok none) := by
    intro aliasName st hnf
    rw [loadDependency, hnf]
    simp
  refine ⟨hreq, hopt, ?_, ?_, ?_⟩
  · intro aliasName vr rest st hnf
    rw [resolveList, hreq aliasName st hnf]
    rcases hres : resolveList fs rootDir pr requesterDir false rest
        ({ st with logs :=
            ⟨aliasName, requesterDir, "bun collector could not locate dependency"⟩ ::
              st.logs }) with ⟨st2, res⟩
    cases res <;> simp [hres]
  · intro aliasName vr rest st hnf
    rw [resolveList, hopt aliasName st hnf]
    rcases hres : resolveList fs rootDir pr requesterDir true rest st with ⟨st2, res⟩
    cases res <;> simp [hres]
  · intro isOptional aliases
    induction aliases with
    | nil =>
      intro st st' l hres x hx
      simp [resolveList] at hres
      rw [hres.2] at hx
      simp at hx
    | cons hd rest ih =>
      intro st st' l hres x hx
      obtain ⟨aliasName, vr⟩ := hd
      rw [resolveList] at hres
      rcases hld : loadDependency fs rootDir pr aliasName requesterDir isOptional st
        with ⟨st1, dres⟩
      rw [hld] at hres
      cases dres with
      | error e => simp at hres
      | ok depOpt =>
        rcases hrl : resolveList fs rootDir pr requesterDir isOptional rest st1
          with ⟨st2, rres⟩
        simp only [hrl] at hres
        cases rres with
        | error e => simp at hres
        | ok restL =>
          simp at hres
          cases depOpt with
          | none =>
            rw [← hres.2] at hx
            exact List.mem_cons_of_mem _ (ih st1 st2 restL hrl x hx)
          | some dep =>
            rw [← hres.2] at hx
            rw [List.map_cons] at hx
            rcases List.mem_cons.mp hx with hx | hx
            · simp [hx]
            · exact List.mem_cons_of_mem _ (ih st1 st2 restL hrl x hx)



/-- Witness for C7 at a concrete unresolvable alias. -/
theorem unresolved_alias_omitted_witness :
    loadDependency fsEmpty ["r"] [] "x" ["r"] false St.empty =
      ({ St.empty with logs := ⟨"x", ["r"], "bun collector could not locate dependency"⟩ ::
          St.empty.logs },
       .ok none) ∧
    loadDependency fsEmpty ["r"] [] "x" ["r"] true St.empty = (St.empty, .ok none) :=
  ⟨(unresolved_alias_omitted fsEmpty ["r"] [] ["r"]).1 "x" St.empty (by decide),
   (unresolved_alias_omitted fsEmpty ["r"] [] ["r"]).2.1 "x" St.empty (by decide)⟩

/-! ## C8 -/

/-- C8: a missing/unreadable/unparsable manifest is fatal: `readPackageJson`
returns an error; `loadDependency` reaching such a directory propagates the
error and leaves the state — in particular the path cache — untouched;
`resolveList` and `getDependenciesTree` propagate any such error
unchanged, with no retry and no recovery. -/
theorem manifest_failure_fatal (fs : FS) :
    (∀ dir : Path, (∀ m' : Manifest, alookup fs.manifests dir ≠ some (some m')) →
      readPackageJson fs dir =
        .error ("Unable to read package.json for " ++ pathToString dir)) ∧
    (∀ rootDir pr aliasName requesterDir isOptional st installedPath e,
      findInstalledDependency fs rootDir requesterDir aliasName = some installedPath →
      alookup st.dependencyCacheByPath (fs.realpath installedPath) = none →
      fs.realpath installedPath ∉ pr →
      readPackageJson fs (fs.realpath installedPath) = .error e →
      loadDependency fs rootDir pr aliasName requesterDir isOptional st =
        (st, .error e)) ∧
    (∀ rootDir pr requesterDir isOptional aliasName vr rest st st1 e,
      loadDependency fs rootDir pr aliasName requesterDir isOptional st =
        (st1, .error e) →
      resolveList fs rootDir pr requesterDir isOptional ((aliasName, vr) :: rest) st =
        (st1, .error e)) ∧
    (∀ rootDir st e, readPackageJson fs rootDir = .error e →
      getDependenciesTree fs rootDir st = (st, .error e)) := by
  refine ⟨?_, ?_, ?_, ?_⟩
  · intro dir hbad
    rw [readPackageJson]
    cases h : alookup fs.manifests dir with
    | none => rfl
    | some om =>
      cases om with
      | none => rfl
      | some m' => exact absurd h (hbad m')
  · intro rootDir pr aliasName requesterDir isOptional st installedPath e hfi hc hp herr
    rw [loadDependency, hfi]
    simp only [hc]
    rw [dif_neg hp]
    split
    · rename_i e1 hm
      rw [herr] at hm
      cases hm
      rfl
    · rename_i manifest hm
      rw [herr] at hm
      simp at hm
  · intro rootDir pr requesterDir isOptional aliasName vr rest st st1 e hld
    rw [resolveList, hld]
  · intro rootDir st e herr
    rw [getDependenciesTree, herr]



/-- Witness for C8 at a concrete broken manifest. -/
theorem manifest_failure_fatal_witness :
    loadDependency fsBadManifest ["r"] [] "x" ["r"] false St.empty =
      (St.empty,
       .error ("Unable to read package.json for " ++ pathToString ["r", "node_modules", "x"])) ∧
    getDependenciesTree fsBadManifest ["r"] St.empty =
      (St.empty, .error ("Unable to read package.json for " ++ pathToString ["r"])) :=
  ⟨(manifest_failure_fatal fsBadManifest).2.1 ["r"] [] "x" ["r"] false St.empty
      ["r", "node_modules", "x"]
      ("Unable to read package.json for " ++ pathToString ["r", "node_modules", "x"])
      (by decide) rfl (by decide) rfl,
   (manifest_failure_fatal fsBadManifest).2.2.2 ["r"] St.empty
      ("Unable to read package.json for " ++ pathToString ["r"]) rfl⟩

end Bun
